import Mathlib

/-!
Shallow embedding of the fileWatcher trigger engine
(`src/fileWatcher.py`): monitor-definition records, the per-source
`__defaults__` merge of `FilesWatcher._start_monitors`, the glob-expansion
loop, the pattern filter of `MonitorAnyFileChange._handle_event`, the
post-watch trigger phase of `FilesWatcher.start`, and the command pipeline
`FilesWatcher._run_commands`.

External collaborators are modelled as parameters: the execution layer is
`env : String → Nat` (command string to exit code), glob expansion is
`expand : String → List String`, and regular expressions are Mathlib's
`RegularExpression Char` with `rmatch`.
-/

namespace FW

/-- A YAML scalar-or-list value of a monitor-definition field
(`"cmd"` or `["cmd1", "cmd2"]`). -/
inductive FieldVal where
  | str (s : String)
  | strs (l : List String)
deriving DecidableEq

/-- A monitor-definition record: a Python dict from field name to value,
as an ordered association list with unique keys. -/
abbrev Dict := List (String × FieldVal)

/-- Python dict lookup `d[k]` / `k in d` (first matching key). -/
def dget? (d : Dict) (k : String) : Option FieldVal :=
  match d with
  | [] => none
  | p :: rest => if p.1 == k then some p.2 else dget? rest k

/-- First-of-two option choice, used to state shallow-merge lookups. -/
def orElseO (a b : Option FieldVal) : Option FieldVal :=
  match a with
  | some _ => a
  | none => b

def keys (d : Dict) : List String := d.map Prod.fst

/-- Python dict union `d1 | d2`: keys of `d1` in order (values taken from
`d2` when the key is also in `d2`), then the keys of `d2` not in `d1`. -/
def mergeDicts (d1 d2 : Dict) : Dict :=
  d1.map (fun p => match dget? d2 p.1 with | some v => (p.1, v) | none => p)
    ++ d2.filter (fun p => !(keys d1).contains p.1)

/-- Python dict assignment `d[k] = v`: overwrite in place, else append. -/
def setKey (d : Dict) (k : String) (v : FieldVal) : Dict :=
  if (keys d).contains k then d.map (fun p => if p.1 == k then (k, v) else p)
  else d ++ [(k, v)]

/-- `if isinstance(commands, str): commands = [commands]` — the
single-string-or-list normalization of `_run_commands`. -/
def normalize : FieldVal → List String
  | .str s => [s]
  | .strs l => l

/-- Read a string-valued field such as `__name` or `__key`. -/
def getStr (d : Dict) (k : String) : String :=
  match dget? d k with
  | some (FieldVal.str s) => s
  | _ => ""

/-- Python `s.replace(old, new)`, scanning left to right and replacing
non-overlapping occurrences of `old` (assumed non-empty, which holds for
the one token the program replaces). When `old` matches at the current
position, `new` is emitted and the matched characters are consumed: the
first one here, the remaining `old.length - 1` via the skip counter. -/
def replaceGo (old new : List Char) : Nat → List Char → List Char
  | _, [] => []
  | Nat.succ k, _ :: cs => replaceGo old new k cs
  | 0, c :: cs =>
    if old ≠ [] ∧ old.isPrefixOf (c :: cs) then
      new ++ replaceGo old new (old.length - 1) cs
    else
      c :: replaceGo old new 0 cs

def replaceList (old new s : List Char) : List Char :=
  replaceGo old new 0 s

/-- Python `s.replace(old, new)` on strings. -/
def pyReplace (s old new : String) : String :=
  String.mk (replaceList old.data new.data s.data)

/-- The placeholder token substituted in every command string. -/
def MONITOR_TOKEN : String := "_MONITOR_NAME_"

/-- The command loop of `_run_commands`: substitute the placeholder,
run the command, stop at the first non-zero exit code and return it.
Returns the list of command strings actually executed and the result. -/
def runCmdList (env : String → Nat) (name : String) : List String → List String × Nat
  | [] => ([], 0)
  | c :: cs =>
    let c2 := pyReplace c MONITOR_TOKEN name
    let r := env c2
    if r ≠ 0 then ([c2], r)
    else
      let rest := runCmdList env name cs
      (c2 :: rest.1, rest.2)

/-- `FilesWatcher._run_commands(monitor_defn, commands_key)`: if the key is
absent nothing runs and the result is 0; else normalize and run the list. -/
def run_commands (env : String → Nat) (d : Dict) (commands_key : String) :
    List String × Nat :=
  match dget? d commands_key with
  | none => ([], 0)
  | some v => runCmdList env (getStr d "__name") (normalize v)

/-- Modelled from the spec: the phase result is the exit code of the first
command that exits non-zero, else 0 ("execution stops at the first command
that exits non-zero, and that non-zero code is the pipeline's result"). -/
def specResult (env : String → Nat) : List String → Nat
  | [] => 0
  | c :: cs => if env c ≠ 0 then env c else specResult env cs

/-- Modelled from the spec: the commands that run are the declared list, in
order, up to and including the first one that exits non-zero. -/
def specExecuted (env : String → Nat) : List String → List String
  | [] => []
  | c :: cs => if env c ≠ 0 then [c] else c :: specExecuted env cs

/-- The declared command list of field `k`, normalized, with the
placeholder substituted by the definition's name. -/
def substCmds (d : Dict) (k : String) : List String :=
  (((dget? d k).map normalize).getD []).map
    (fun c => pyReplace c MONITOR_TOKEN (getStr d "__name"))

/-- One call of `_run_commands` made by `FilesWatcher.start`: which
definition, which hook key, and which command strings were executed. -/
structure PhaseRun where
  defnKey : String
  phase : String
  cmds : List String
deriving DecidableEq

/-- The per-definition pipeline of `FilesWatcher.start`: with the skip-file
present only `skipped` runs; otherwise `commands` runs, then `completed`
if its result was 0 and `error` otherwise (hook result discarded). -/
def pipelineForDefn (env : String → Nat) (has_skip_file : Bool) (d : Dict) :
    List PhaseRun :=
  let key := getStr d "__key"
  if has_skip_file then
    [⟨key, "skipped", (run_commands env d "skipped").1⟩]
  else
    let r := run_commands env d "commands"
    let hookKey := if r.2 = 0 then "completed" else "error"
    [⟨key, "commands", r.1⟩, ⟨key, hookKey, (run_commands env d hookKey).1⟩]

/-- A `MonitorAnyFileChange` event handler at the end of the watch phase:
its recorded file set and its owning monitor definition. -/
structure Handler where
  files : List (List Char)
  defn : Dict

/-- `MonitorAnyFileChange.has_change`: any file event recorded. -/
def has_change (h : Handler) : Bool := !h.files.isEmpty

/-- The post-watch loop of `FilesWatcher.start`: iterate over the event
handlers; for each changed handler whose definition key is not already in
`triggered_monitor_defn_keys`, add the key and run the pipeline. -/
def processHandlers (env : String → Nat) (has_skip_file : Bool)
    (triggered : List String) : List Handler → List PhaseRun
  | [] => []
  | h :: rest =>
    if has_change h then
      let key := getStr h.defn "__key"
      if triggered.contains key then
        processHandlers env has_skip_file triggered rest
      else
        pipelineForDefn env has_skip_file h.defn
          ++ processHandlers env has_skip_file (key :: triggered) rest
    else
      processHandlers env has_skip_file triggered rest

/-- Regular-expression patterns of a SearchDefinition. -/
abbrev Pat := RegularExpression Char

/-- Python `re.match(r, s)` truthiness: the pattern matches at the start of
the string, i.e. it fully matches some leading segment of `s`. -/
def reMatchB (r : Pat) (s : List Char) : Bool :=
  (s.inits).any fun p => r.rmatch p

/-- Modelled from the spec: regular-expression search semantics
(un-anchored, match anywhere in the path), for comparison with the
`re.match` call the code makes. -/
def reSearchB (r : Pat) (s : List Char) : Bool :=
  (s.tails).any fun t => reMatchB r t

/-- The `for file_extension in self._monitor['patterns']` loop of
`_handle_event`: try each pattern with `re.match`, break at the first hit. -/
def matchLoop (pats : List Pat) (path : List Char) : Bool :=
  match pats with
  | [] => false
  | p :: ps => if reMatchB p path then true else matchLoop ps path

/-- `self._files.add(path)`: idempotent set insertion. -/
def addFile (files : List (List Char)) (path : List Char) : List (List Char) :=
  if path ∈ files then files else path :: files

/-- `MonitorAnyFileChange._handle_event`: with `patterns` declared, record
the path iff some pattern `re.match`-es it; with no `patterns`, record
iff `event.src_path` is truthy (non-empty). -/
def handle_event (patterns : Option (List Pat)) (files : List (List Char))
    (src_path : List Char) : List (List Char) :=
  match patterns with
  | some pats => if matchLoop pats src_path then addFile files src_path else files
  | none => if src_path.isEmpty then files else addFile files src_path

/-- Outcome of the glob loops of `_start_monitors`: watch targets added,
warnings printed, and whether `exit(1)` was reached. -/
structure SearchOutcome where
  targets : List String
  warnings : List String
  fatal : Bool
deriving DecidableEq

def globWarning (g : String) : String :=
  "ERROR: No glob expansion for: " ++ g ++ "."

/-- The per-search glob loop of `_start_monitors`: expand every glob of
`paths`, adding one monitor per match; after the loop, if no glob of the
whole list produced a match (and the list was non-empty), print a warning
naming the last glob and, with `--exit_on_error`, exit. -/
def expandSearch (expand : String → List String) (exit_on_error : Bool)
    (paths : List String) : SearchOutcome :=
  let found := paths.any fun g => !(expand g).isEmpty
  match paths.getLast? with
  | none => ⟨(paths.map expand).flatten, [], false⟩
  | some lastGlob =>
    if found then ⟨(paths.map expand).flatten, [], false⟩
    else ⟨(paths.map expand).flatten, [globWarning lastGlob], exit_on_error⟩

/-- The search loop of `_start_monitors` over a definition's searches:
process each search's path list in order; `exit(1)` aborts the rest. -/
def processSearches (expand : String → List String) (exit_on_error : Bool) :
    List (List String) → SearchOutcome
  | [] => ⟨[], [], false⟩
  | ps :: rest =>
    let o := expandSearch expand exit_on_error ps
    if o.fatal then o
    else
      let o2 := processSearches expand exit_on_error rest
      ⟨o.targets ++ o2.targets, o.warnings ++ o2.warnings, o2.fatal⟩

/-- `monitor_defn['__name'] = defn_name; monitor_defn['__key'] = f"{source}:{defn_name}"`. -/
def finalizeDefn (source name : String) (d : Dict) : Dict :=
  setKey (setKey d "__name" (FieldVal.str name)) "__key"
    (FieldVal.str (source ++ ":" ++ name))

/-- The definition loop of `_start_monitors`: thread the current
`__defaults__` record through the source's definitions in order; a
`__defaults__` entry replaces the defaults for the following entries, any
other entry is merged `defaults | defn` and given `__name`/`__key`. -/
def start_monitors (source : String) (defaults : Dict) :
    List (String × Dict) → List (String × Dict)
  | [] => []
  | (name, d) :: rest =>
    if name == "__defaults__" then start_monitors source d rest
    else
      (name, finalizeDefn source name (mergeDicts defaults d))
        :: start_monitors source defaults rest

/-- `_start_monitors(source, monitor_defns)`: the defaults are reset to the
empty dict at every call (one call per configuration source). -/
def processSource (source : String) (defns : List (String × Dict)) :
    List (String × Dict) :=
  start_monitors source [] defns

/-- The YAML-file loop of `_setup_observers`: each source is processed by
its own `_start_monitors` call. -/
def processSources (sources : List (String × List (String × Dict))) :
    List (String × Dict) :=
  sources.flatMap fun s => processSource s.1 s.2

/-! ### Lemmas about the command pipeline -/

/-- The command loop refines the spec's description: the executed commands
are the substituted declared list up to the first failure, and the result
is that failure's exit code (0 if none fails). -/
theorem runCmdList_eq (env : String → Nat) (name : String) (cmds : List String) :
    runCmdList env name cmds
      = (specExecuted env (cmds.map fun c => pyReplace c MONITOR_TOKEN name),
         specResult env (cmds.map fun c => pyReplace c MONITOR_TOKEN name)) := by
  induction cmds with
  | nil => rfl
  | cons c cs ih =>
    simp only [runCmdList, List.map_cons, specExecuted, specResult]
    by_cases hr : env (pyReplace c MONITOR_TOKEN name) ≠ 0
    · simp [hr]
    · simp [hr, ih]

theorem run_commands_eq (env : String → Nat) (d : Dict) (k : String) :
    run_commands env d k
      = (specExecuted env (substCmds d k), specResult env (substCmds d k)) := by
  unfold run_commands substCmds
  cases hd : dget? d k with
  | none => rfl
  | some v => simp [runCmdList_eq]

theorem specExecuted_take (env : String → Nat) (l : List String) :
    specExecuted env l = l.take (specExecuted env l).length := by
  induction l with
  | nil => rfl
  | cons c cs ih =>
    simp only [specExecuted]
    by_cases hr : env c ≠ 0
    · simp [hr]
    · simp only [hr, if_neg, ite_false, List.length_cons, List.take_succ_cons]
      simp [ih.symm]

/-! ### Claims about the command phase -/

/-- Claim C3: for every triggered definition, the `commands` list runs in
declared order; execution stops at the first non-zero exit code, no later
command runs, and that code is the phase result; if every command exits 0
or the key is absent the result is 0. Stated as a refinement: the executed
trace and result of `_run_commands` equal the spec-modelled
`specExecuted`/`specResult` of the substituted declared list (both are `[]`
and `0` when the key is absent), and the trace is a prefix of the declared
list in declared order. -/
theorem commands_short_circuit (env : String → Nat) (d : Dict) :
    run_commands env d "commands"
      = (specExecuted env (substCmds d "commands"),
         specResult env (substCmds d "commands"))
    ∧ (run_commands env d "commands").1
      = (substCmds d "commands").take (run_commands env d "commands").1.length := by
  refine ⟨run_commands_eq env d "commands", ?_⟩
  rw [run_commands_eq]
  exact specExecuted_take env (substCmds d "commands")

/-- Claim C8: every literal occurrence of `_MONITOR_NAME_` in a command
string is replaced by the definition's name before the command is run: the
executed trace consists of the substituted command strings, and for a
definition named `build` the command `echo _MONITOR_NAME_` executes as
`echo build`, whatever its exit code. -/
theorem monitor_name_substitution :
    (∀ (env : String → Nat) (name : String) (cmds : List String),
      (runCmdList env name cmds).1
        = (cmds.map fun c => pyReplace c MONITOR_TOKEN name).take
            (runCmdList env name cmds).1.length)
    ∧ (∀ env : String → Nat,
        (run_commands env
            [("__name", FieldVal.str "build"),
             ("commands", FieldVal.str "echo _MONITOR_NAME_")] "commands").1
          = ["echo build"]) := by
  constructor
  · intro env name cmds
    rw [runCmdList_eq]
    exact specExecuted_take env (cmds.map fun c => pyReplace c MONITOR_TOKEN name)
  · intro env
    rw [run_commands_eq]
    have hsub : substCmds
        [("__name", FieldVal.str "build"),
         ("commands", FieldVal.str "echo _MONITOR_NAME_")] "commands"
        = ["echo build"] := by decide
    rw [hsub]
    by_cases h0 : env "echo build" ≠ 0 <;> simp [specExecuted, h0]

/-- Claim C4, counterexample: hook lists are NOT executed to completion.
With `commands` absent (phase result 0) and `completed = ["c1", "c2"]`
where `c1` exits 1, the pipeline executes only `c1` of the hook list and
`c2` never runs, contradicting "executed to completion: a non-zero exit of
one hook command does not prevent the remaining commands of that hook list
from running". -/
theorem hook_stops_at_failure :
    pipelineForDefn (fun s => if s == "c1" then 1 else 0) false
        [("__name", FieldVal.str "d"), ("__key", FieldVal.str "k"),
         ("completed", FieldVal.strs ["c1", "c2"])]
      = [⟨"k", "commands", []⟩, ⟨"k", "completed", ["c1"]⟩] := by decide

/-- Claim C4 as amended: after the `commands` phase the pipeline runs
`completed` when the result was 0 and `error` otherwise; the selected hook
list runs with the same first-failure short-circuit as `commands`, and its
own result is discarded — the pipeline for the definition is exactly these
two phase runs whatever the hook's exit codes. -/
theorem completed_or_error_hook (env : String → Nat) (d : Dict) :
    pipelineForDefn env false d
      = [⟨getStr d "__key", "commands", specExecuted env (substCmds d "commands")⟩,
         ⟨getStr d "__key",
          if specResult env (substCmds d "commands") = 0 then "completed" else "error",
          specExecuted env (substCmds d
            (if specResult env (substCmds d "commands") = 0 then "completed"
             else "error"))⟩] := by
  by_cases h0 : specResult env (substCmds d "commands") = 0 <;>
    simp [pipelineForDefn, run_commands_eq, h0]

/-- Claim C10: a triggered definition with no `commands` key (declared or
inherited) has an empty `commands` phase with result 0, so the `completed`
hook list runs, never `error`. -/
theorem absent_commands_runs_completed (env : String → Nat) (d : Dict)
    (h : dget? d "commands" = none) :
    run_commands env d "commands" = ([], 0)
    ∧ pipelineForDefn env false d
      = [⟨getStr d "__key", "commands", []⟩,
         ⟨getStr d "__key", "completed",
          specExecuted env (substCmds d "completed")⟩] := by
  have h1 : run_commands env d "commands" = ([], 0) := by
    unfold run_commands
    rw [h]
  refine ⟨h1, ?_⟩
  simp [pipelineForDefn, h1, run_commands_eq]

/-- Witness for C10 at a concrete definition with no `commands` key. -/
theorem absent_commands_runs_completed_witness :
    dget? [("__name", FieldVal.str "n"), ("__key", FieldVal.str "k10"),
        ("completed", FieldVal.str "ok")] "commands" = none
    ∧ (run_commands (fun _ => 0)
          [("__name", FieldVal.str "n"), ("__key", FieldVal.str "k10"),
           ("completed", FieldVal.str "ok")] "commands" = ([], 0)
       ∧ pipelineForDefn (fun _ => 0) false
            [("__name", FieldVal.str "n"), ("__key", FieldVal.str "k10"),
             ("completed", FieldVal.str "ok")]
          = [⟨getStr [("__name", FieldVal.str "n"), ("__key", FieldVal.str "k10"),
                ("completed", FieldVal.str "ok")] "__key", "commands", []⟩,
             ⟨getStr [("__name", FieldVal.str "n"), ("__key", FieldVal.str "k10"),
                ("completed", FieldVal.str "ok")] "__key", "completed",
              specExecuted (fun _ => 0)
                (substCmds [("__name", FieldVal.str "n"), ("__key", FieldVal.str "k10"),
                  ("completed", FieldVal.str "ok")] "completed")⟩]) :=
  ⟨by decide,
   absent_commands_runs_completed (fun _ => 0)
     [("__name", FieldVal.str "n"), ("__key", FieldVal.str "k10"),
      ("completed", FieldVal.str "ok")] (by decide)⟩

/-! ### Lemmas about the pattern filter -/

/-- `re.match` truthiness: the pattern fully matches some leading segment. -/
theorem reMatchB_iff (r : Pat) (s : List Char) :
    reMatchB r s = true ↔ ∃ pre suf, pre ++ suf = s ∧ pre ∈ r.matches' := by
  unfold reMatchB
  rw [List.any_eq_true]
  constructor
  · rintro ⟨p, hp, hr⟩
    obtain ⟨q, hq⟩ := (List.mem_inits p s).mp hp
    exact ⟨p, q, hq, (RegularExpression.rmatch_iff_matches' r p).mp hr⟩
  · rintro ⟨p, q, hpq, hm⟩
    exact ⟨p, (List.mem_inits p s).mpr ⟨q, hpq⟩,
      (RegularExpression.rmatch_iff_matches' r p).mpr hm⟩

/-- The first-hit pattern loop records iff some pattern `re.match`-es. -/
theorem matchLoop_eq_any (pats : List Pat) (path : List Char) :
    matchLoop pats path = pats.any fun p => reMatchB p path := by
  induction pats with
  | nil => rfl
  | cons p ps ih =>
    simp only [matchLoop, List.any_cons, ih]
    cases hb : reMatchB p path <;> simp [hb]

theorem matchLoop_iff (pats : List Pat) (path : List Char) :
    matchLoop pats path = true
      ↔ ∃ p ∈ pats, ∃ pre suf, pre ++ suf = path ∧ pre ∈ p.matches' := by
  rw [matchLoop_eq_any, List.any_eq_true]
  constructor
  · rintro ⟨p, hp, hr⟩
    exact ⟨p, hp, (reMatchB_iff p path).mp hr⟩
  · rintro ⟨p, hp, hrest⟩
    exact ⟨p, hp, (reMatchB_iff p path).mpr hrest⟩

theorem mem_addFile (files : List (List Char)) (p x : List Char) :
    x ∈ addFile files p ↔ x = p ∨ x ∈ files := by
  unfold addFile
  split
  · next h =>
    constructor
    · exact fun hx => Or.inr hx
    · rintro (rfl | hx)
      · exact h
      · exact hx
  · next h => simp [List.mem_cons]

/-- Claim C1, counterexample: the filter is NOT regular-expression search.
The pattern `b` matches the path `ab` under search semantics (anywhere in
the path), yet `_handle_event` records nothing, because `re.match` anchors
the pattern at the start of the path. -/
theorem pattern_match_is_anchored :
    handle_event (some [RegularExpression.char 'b']) [] ['a', 'b'] = []
    ∧ reSearchB (RegularExpression.char 'b') ['a', 'b'] = true := by decide

/-- Claim C1 as amended: with `patterns` declared, an event's path is
recorded iff at least one pattern matches a leading segment of the path
(`re.match`: anchored at the start, not full match, not
search-anywhere); with no `patterns`, every event whose path is non-empty
is recorded unconditionally. -/
theorem pattern_filter_semantics (pats : List Pat) (files : List (List Char))
    (path : List Char) :
    (path ∈ handle_event (some pats) files path
      ↔ (∃ p ∈ pats, ∃ pre suf, pre ++ suf = path ∧ pre ∈ p.matches')
        ∨ path ∈ files)
    ∧ (path ∈ handle_event none files path ↔ path ≠ [] ∨ path ∈ files) := by
  constructor
  · by_cases hm : matchLoop pats path = true
    · simp only [handle_event, if_pos hm, mem_addFile]
      exact ⟨fun _ => Or.inl ((matchLoop_iff pats path).mp hm),
        fun _ => Or.inl trivial⟩
    · simp only [handle_event, if_neg hm]
      constructor
      · exact fun hx => Or.inr hx
      · rintro (h1 | hx)
        · exact absurd ((matchLoop_iff pats path).mpr h1) hm
        · exact hx
  · cases path with
    | nil =>
      simp only [handle_event, List.isEmpty_nil, if_pos]
      constructor
      · exact fun hx => Or.inr hx
      · rintro (hne | hx)
        · exact absurd rfl hne
        · exact hx
    | cons c cs =>
      simp only [handle_event, List.isEmpty_cons, Bool.false_eq_true,
        if_false, mem_addFile]
      exact ⟨fun _ => Or.inl (by simp), fun _ => Or.inl trivial⟩

/-! ### Lemmas about the post-watch trigger phase -/

theorem pipelineForDefn_defnKey (env : String → Nat) (sk : Bool) (d : Dict) :
    ∀ r ∈ pipelineForDefn env sk d, r.defnKey = getStr d "__key" := by
  intro r hr
  unfold pipelineForDefn at hr
  cases sk with
  | true =>
    simp only [if_pos, List.mem_singleton] at hr
    subst hr
    rfl
  | false =>
    simp only [Bool.false_eq_true, if_false, List.mem_cons,
      List.mem_singleton, List.not_mem_nil, or_false] at hr
    rcases hr with h | h <;> subst h <;> rfl

theorem processHandlers_key_not_mem (env : String → Nat) (sk : Bool) :
    ∀ (hs : List Handler) (tr : List String) (r : PhaseRun),
      r ∈ processHandlers env sk tr hs → r.defnKey ∉ tr := by
  intro hs
  induction hs with
  | nil =>
    intro tr r hr
    simp [processHandlers] at hr
  | cons h rest ih =>
    intro tr r hr
    unfold processHandlers at hr
    by_cases hc : has_change h = true
    · rw [if_pos hc] at hr
      by_cases hk : tr.contains (getStr h.defn "__key") = true
      · rw [if_pos hk] at hr
        exact ih tr r hr
      · rw [if_neg hk] at hr
        rcases List.mem_append.mp hr with h1 | h2
        · rw [pipelineForDefn_defnKey env sk h.defn r h1]
          intro hmem
          exact hk (List.elem_iff.mpr hmem)
        · intro hmem
          exact ih _ r h2 (List.mem_cons_of_mem _ hmem)
    · rw [if_neg hc] at hr
      exact ih tr r hr

/-- Of a pipeline's phase runs, exactly one is the triggering run
(`skipped` with the skip-file, `commands` without), and it carries the
definition's key. -/
theorem pipeline_filtered_keys (env : String → Nat) (sk : Bool) (d : Dict) :
    ((pipelineForDefn env sk d).filter
        (fun r => r.phase == "commands" || r.phase == "skipped")).map
      PhaseRun.defnKey = [getStr d "__key"] := by
  cases sk with
  | true => simp [pipelineForDefn]
  | false =>
    by_cases h0 : (run_commands env d "commands").2 = 0 <;>
      simp [pipelineForDefn, h0]

theorem processHandlers_nodup_aux (env : String → Nat) (sk : Bool) :
    ∀ (hs : List Handler) (tr : List String),
      (((processHandlers env sk tr hs).filter
          (fun r => r.phase == "commands" || r.phase == "skipped")).map
        PhaseRun.defnKey).Nodup := by
  intro hs
  induction hs with
  | nil =>
    intro tr
    simp [processHandlers]
  | cons h rest ih =>
    intro tr
    unfold processHandlers
    by_cases hc : has_change h = true
    · rw [if_pos hc]
      by_cases hk : tr.contains (getStr h.defn "__key") = true
      · rw [if_pos hk]
        exact ih tr
      · rw [if_neg hk]
        rw [List.filter_append, List.map_append, pipeline_filtered_keys]
        rw [List.singleton_append, List.nodup_cons]
        refine ⟨?_, ih _⟩
        intro hmem
        obtain ⟨r, hrf, hrk⟩ := List.mem_map.mp hmem
        have hr2 := (List.mem_filter.mp hrf).1
        have hr3 := processHandlers_key_not_mem env sk rest _ r hr2
        rw [hrk] at hr3
        exact hr3 (List.mem_cons_self _ _)
    · rw [if_neg hc]
      exact ih tr

/-- If every phase run a pipeline can emit satisfies `p`, so does the whole
post-watch trace. -/
theorem processHandlers_all (env : String → Nat) (sk : Bool) (p : PhaseRun → Bool)
    (hp : ∀ d : Dict, ((pipelineForDefn env sk d).all p) = true) :
    ∀ (hs : List Handler) (tr : List String),
      ((processHandlers env sk tr hs).all p) = true := by
  intro hs
  induction hs with
  | nil =>
    intro tr
    rfl
  | cons h rest ih =>
    intro tr
    unfold processHandlers
    by_cases hc : has_change h = true
    · rw [if_pos hc]
      by_cases hk : tr.contains (getStr h.defn "__key") = true
      · rw [if_pos hk]
        exact ih _
      · rw [if_neg hk]
        rw [List.all_append, hp h.defn, ih _]
        rfl
    · rw [if_neg hc]
      exact ih _

theorem pipeline_skip_keys (env : String → Nat) (d : Dict) :
    ((pipelineForDefn env true d).filter
        (fun r => r.phase == "skipped")).map PhaseRun.defnKey
      = [getStr d "__key"] := by
  simp [pipelineForDefn]

theorem pipeline_cmd_keys (env : String → Nat) (d : Dict) :
    ((pipelineForDefn env false d).filter
        (fun r => r.phase == "commands")).map PhaseRun.defnKey
      = [getStr d "__key"] := by
  by_cases h0 : (run_commands env d "commands").2 = 0 <;>
    simp [pipelineForDefn, h0]

/-- The same definitions trigger with and without the skip-file: the keys
of the `skipped` runs under the skip-file are exactly the keys of the
`commands` runs without it. -/
theorem processHandlers_trigger_keys (env env2 : String → Nat) :
    ∀ (hs : List Handler) (tr : List String),
      ((processHandlers env true tr hs).filter
          (fun r => r.phase == "skipped")).map PhaseRun.defnKey
        = ((processHandlers env2 false tr hs).filter
            (fun r => r.phase == "commands")).map PhaseRun.defnKey := by
  intro hs
  induction hs with
  | nil =>
    intro tr
    rfl
  | cons h rest ih =>
    intro tr
    unfold processHandlers
    by_cases hc : has_change h = true
    · rw [if_pos hc, if_pos hc]
      by_cases hk : tr.contains (getStr h.defn "__key") = true
      · rw [if_pos hk, if_pos hk]
        exact ih tr
      · rw [if_neg hk, if_neg hk]
        rw [List.filter_append, List.map_append, List.filter_append,
          List.map_append, pipeline_skip_keys, pipeline_cmd_keys, ih]
    · rw [if_neg hc, if_neg hc]
      exact ih tr

theorem pipelineForDefn_skip_phase (env : String → Nat) (d : Dict) :
    ((pipelineForDefn env true d).all fun r => r.phase == "skipped") = true := by
  simp [pipelineForDefn]

theorem pipelineForDefn_known_phase (env : String → Nat) (sk : Bool) (d : Dict) :
    ((pipelineForDefn env sk d).all fun r =>
      (r.phase == "skipped" || r.phase == "commands" || r.phase == "completed"
        || r.phase == "error") && !(r.phase == "started")) = true := by
  cases sk with
  | true => simp [pipelineForDefn]
  | false =>
    by_cases h0 : (run_commands env d "commands").2 = 0 <;>
      simp [pipelineForDefn, h0]

/-! ### Claims about the trigger phase -/

/-- Claim C2: each definition's pipeline runs at most once per trigger
cycle, however many of its handlers recorded changes: the keys of the
triggering phase runs (the `commands` run, or the `skipped` run under the
skip-file) in one cycle's trace are pairwise distinct. -/
theorem definition_fires_once (env : String → Nat) (sk : Bool) (hs : List Handler) :
    (((processHandlers env sk [] hs).filter
        (fun r => r.phase == "commands" || r.phase == "skipped")).map
      PhaseRun.defnKey).Nodup :=
  processHandlers_nodup_aux env sk hs []

/-- Claim C6: when the skip-file exists at the single per-cycle check,
every phase run of the cycle is a `skipped` run — `commands`, `completed`
and `error` never run for any triggered definition — and the `skipped`
hook is executed for exactly the definitions that would otherwise have had
their `commands` phase run. -/
theorem skip_file_gates_pipeline (env env2 : String → Nat) (tr : List String)
    (hs : List Handler) :
    ((processHandlers env true tr hs).all fun r => r.phase == "skipped") = true
    ∧ ((processHandlers env true tr hs).filter
          (fun r => r.phase == "skipped")).map PhaseRun.defnKey
        = ((processHandlers env2 false tr hs).filter
            (fun r => r.phase == "commands")).map PhaseRun.defnKey :=
  ⟨processHandlers_all env true _ (fun d => pipelineForDefn_skip_phase env d) hs tr,
   processHandlers_trigger_keys env env2 hs tr⟩

/-- Claim C9: the only hook keys ever passed to command execution are
`skipped`, `commands`, `completed` and `error`; in particular the accepted
`started` key is never executed. -/
theorem started_never_runs (env : String → Nat) (sk : Bool) (tr : List String)
    (hs : List Handler) :
    ((processHandlers env sk tr hs).all fun r =>
      (r.phase == "skipped" || r.phase == "commands" || r.phase == "completed"
        || r.phase == "error") && !(r.phase == "started")) = true :=
  processHandlers_all env sk _ (fun d => pipelineForDefn_known_phase env sk d) hs tr

/-! ### Lemmas about the defaults merge -/

theorem dget?_append (l1 l2 : Dict) (k : String) :
    dget? (l1 ++ l2) k = orElseO (dget? l1 k) (dget? l2 k) := by
  induction l1 with
  | nil => rfl
  | cons p rest ih =>
    simp only [List.cons_append, dget?]
    by_cases h : (p.1 == k) = true
    · rw [if_pos h, if_pos h]
      rfl
    · rw [if_neg h, if_neg h]
      exact ih

theorem dget?_mapVals (g : String → FieldVal → FieldVal) (d : Dict) (k : String) :
    dget? (d.map fun p => (p.1, g p.1 p.2)) k = (dget? d k).map (g k) := by
  induction d with
  | nil => rfl
  | cons p rest ih =>
    simp only [List.map_cons, dget?]
    by_cases h : (p.1 == k) = true
    · rw [if_pos h, if_pos h, show p.1 = k from eq_of_beq h]
      rfl
    · rw [if_neg h, if_neg h]
      exact ih

theorem dget?_filterKeys (q : String → Bool) (d : Dict) (k : String) :
    dget? (d.filter fun p => q p.1) k = if q k then dget? d k else none := by
  induction d with
  | nil => cases hq : q k <;> simp [dget?, hq]
  | cons p rest ih =>
    simp only [List.filter_cons]
    by_cases hp : q p.1 = true
    · rw [if_pos hp]
      simp only [dget?]
      by_cases h : (p.1 == k) = true
      · rw [if_pos h]
        rw [show p.1 = k from eq_of_beq h] at hp
        rw [if_pos hp]
        simp [dget?, h]
      · rw [if_neg h, ih]
        by_cases hq : q k = true
        · rw [if_pos hq, if_pos hq, if_neg h]
        · rw [if_neg hq, if_neg hq]
    · rw [if_neg hp]
      rw [ih]
      by_cases hq : q k = true
      · rw [if_pos hq, if_pos hq]
        simp only [dget?]
        have hne : (p.1 == k) = false := by
          rcases Bool.eq_false_or_eq_true (p.1 == k) with ht | hf
          · rw [show p.1 = k from eq_of_beq ht] at hp
            exact absurd hq hp
          · exact hf
        rw [hne]
        simp
      · rw [if_neg hq, if_neg hq]

theorem keys_contains_eq (d : Dict) (k : String) :
    (keys d).contains k = (dget? d k).isSome := by
  induction d with
  | nil => rfl
  | cons p rest ih =>
    simp only [keys, List.map_cons, List.contains_cons, dget?]
    by_cases h : p.1 = k
    · simp [h]
    · have h1 : (k == p.1) = false := by simp [Ne.symm h]
      have h2 : (p.1 == k) = false := by simp [h]
      rw [h1, h2]
      simpa [keys] using ih

/-- The merged record looks up each key in the definition first and falls
back to the defaults: Python `defaults | defn` is a shallow per-key
override. -/
theorem dget?_mergeDicts (d1 d2 : Dict) (k : String) :
    dget? (mergeDicts d1 d2) k = orElseO (dget? d2 k) (dget? d1 k) := by
  unfold mergeDicts
  have hfun : (fun p : String × FieldVal =>
      match dget? d2 p.1 with | some v => (p.1, v) | none => p)
      = fun p => (p.1, (dget? d2 p.1).getD p.2) := by
    funext p
    cases dget? d2 p.1 <;> rfl
  rw [hfun, dget?_append, dget?_mapVals (fun a v => (dget? d2 a).getD v) d1 k,
    dget?_filterKeys (fun a => !(keys d1).contains a) d2 k, keys_contains_eq]
  cases h1 : dget? d1 k with
  | none =>
    simp only [Option.map_none, Option.isSome_none, Bool.not_false, if_pos]
    cases h2 : dget? d2 k <;> rfl
  | some v =>
    simp only [Option.map_some, Option.isSome_some, Bool.not_true,
      Bool.false_eq_true, if_false]
    cases h2 : dget? d2 k <;> rfl

theorem start_monitors_no_defaults (source : String) (dflt : Dict) :
    ∀ defns : List (String × Dict),
      "__defaults__" ∉ defns.map Prod.fst →
      start_monitors source dflt defns
        = defns.map fun p => (p.1, finalizeDefn source p.1 (mergeDicts dflt p.2)) := by
  intro defns
  induction defns with
  | nil => intro _; rfl
  | cons p rest ih =>
    intro hnd
    obtain ⟨name, d⟩ := p
    simp only [List.map_cons, List.mem_cons, not_or] at hnd
    obtain ⟨h1, h2⟩ := hnd
    have hne : (name == "__defaults__") = false := by
      simp [Ne.symm h1]
    simp only [start_monitors, hne, Bool.false_eq_true, if_false]
    rw [ih h2]
    rfl

theorem start_monitors_split (source : String) (d0 dflt : Dict) :
    ∀ (pre post : List (String × Dict)),
      "__defaults__" ∉ pre.map Prod.fst →
      start_monitors source d0 (pre ++ ("__defaults__", dflt) :: post)
        = start_monitors source d0 pre ++ start_monitors source dflt post := by
  intro pre
  induction pre with
  | nil =>
    intro post _
    simp only [List.nil_append, start_monitors, beq_self_eq_true, if_pos,
      List.nil_append]
  | cons p rest ih =>
    intro post hnd
    obtain ⟨name, d⟩ := p
    simp only [List.map_cons, List.mem_cons, not_or] at hnd
    obtain ⟨h1, h2⟩ := hnd
    have hne : (name == "__defaults__") = false := by
      simp [Ne.symm h1]
    simp only [List.cons_append, start_monitors, hne, Bool.false_eq_true,
      if_false, List.append_eq]
    rw [ih post h2]

/-! ### Claims about the defaults merge -/

/-- Claim C5, counterexample: `__defaults__` is NOT merged into every other
definition of its source. In a source whose mapping lists definition `a`
before `__defaults__` (which declares `commands: "A"`), the processed
definition `a` has no `commands` key at all: the defaults only apply to
definitions after the `__defaults__` entry in mapping order. -/
theorem defaults_skip_earlier_defn :
    (processSource "s" [("a", []),
        ("__defaults__", [("commands", FieldVal.str "A")])]).map
      (fun p => (p.1, dget? p.2 "commands"))
      = [("a", none)] := by decide

/-- Claim C5 as amended: `__defaults__` is merged shallowly per key into
every definition that appears after it in the source's mapping order (an
explicit key fully replaces the default value), and defaults of one source
never apply to a definition of another source (each source is processed
with its own defaults, reset to empty). -/
theorem defaults_merge_shallow (source : String) (dflt : Dict)
    (pre post : List (String × Dict))
    (hpre : "__defaults__" ∉ pre.map Prod.fst)
    (hpost : "__defaults__" ∉ post.map Prod.fst) :
    processSource source (pre ++ ("__defaults__", dflt) :: post)
      = processSource source pre
        ++ post.map (fun p => (p.1, finalizeDefn source p.1 (mergeDicts dflt p.2)))
    ∧ (∀ (d1 d2 : Dict) (k : String),
        dget? (mergeDicts d1 d2) k = orElseO (dget? d2 k) (dget? d1 k))
    ∧ (∀ s1 s2 : String × List (String × Dict),
        processSources [s1, s2]
          = processSource s1.1 s1.2 ++ processSource s2.1 s2.2) := by
  refine ⟨?_, dget?_mergeDicts, ?_⟩
  · unfold processSource
    rw [start_monitors_split source [] dflt pre post hpre,
      start_monitors_no_defaults source dflt post hpost]
  · intro s1 s2
    simp [processSources, processSource]

/-- Witness for C5 as amended, at a one-definition prefix and a
one-definition suffix around `__defaults__`. -/
theorem defaults_merge_shallow_witness :
    ("__defaults__" ∉ ([("p", ([] : Dict))].map Prod.fst)
      ∧ "__defaults__" ∉ ([("q", [("commands", FieldVal.str "B")])].map Prod.fst))
    ∧ (processSource "s"
          ([("p", ([] : Dict))]
            ++ ("__defaults__", [("commands", FieldVal.str "A")])
              :: [("q", [("commands", FieldVal.str "B")])])
        = processSource "s" [("p", ([] : Dict))]
          ++ [("q", [("commands", FieldVal.str "B")])].map
              (fun p => (p.1, finalizeDefn "s" p.1
                (mergeDicts [("commands", FieldVal.str "A")] p.2)))
      ∧ (∀ (d1 d2 : Dict) (k : String),
          dget? (mergeDicts d1 d2) k = orElseO (dget? d2 k) (dget? d1 k))
      ∧ (∀ s1 s2 : String × List (String × Dict),
          processSources [s1, s2]
            = processSource s1.1 s1.2 ++ processSource s2.1 s2.2)) :=
  ⟨⟨by decide, by decide⟩,
   defaults_merge_shallow "s" [("commands", FieldVal.str "A")]
     [("p", ([] : Dict))] [("q", [("commands", FieldVal.str "B")])]
     (by decide) (by decide)⟩

/-! ### Lemmas about glob expansion -/

theorem expandSearch_targets (expand : String → List String) (eoe : Bool)
    (paths : List String) :
    (expandSearch expand eoe paths).targets = (paths.map expand).flatten := by
  unfold expandSearch
  cases hl : paths.getLast? with
  | none => rfl
  | some g =>
    by_cases hf : (paths.any fun x => !(expand x).isEmpty) = true <;> simp [hf]

theorem expandSearch_fatal_lenient (expand : String → List String)
    (paths : List String) :
    (expandSearch expand false paths).fatal = false := by
  unfold expandSearch
  cases hl : paths.getLast? with
  | none => rfl
  | some g =>
    by_cases hf : (paths.any fun x => !(expand x).isEmpty) = true <;> simp [hf]

theorem expandSearch_warnings (expand : String → List String) (eoe : Bool)
    (paths : List String) :
    (expandSearch expand eoe paths).warnings
      = if paths ≠ [] ∧ (paths.all fun g => (expand g).isEmpty) = true
        then [globWarning (paths.getLast?.getD "")] else [] := by
  unfold expandSearch
  cases hl : paths.getLast? with
  | none =>
    have hnil : paths = [] := List.getLast?_eq_none_iff.mp hl
    subst hnil
    simp
  | some g =>
    have hne : paths ≠ [] := by
      intro h
      subst h
      simp at hl
    by_cases hf : (paths.any fun x => !(expand x).isEmpty) = true
    · have hallf : (paths.all fun x => (expand x).isEmpty) = false := by
        rw [List.any_eq_true] at hf
        obtain ⟨x, hx, hxe⟩ := hf
        rcases Bool.eq_false_or_eq_true (paths.all fun x => (expand x).isEmpty)
          with ht | hff
        · rw [List.all_eq_true] at ht
          rw [ht x hx] at hxe
          simp at hxe
        · exact hff
      simp [hf, hallf]
    · have hall : (paths.all fun x => (expand x).isEmpty) = true := by
        rw [List.all_eq_true]
        intro x hx
        have hx2 := (List.any_eq_false.mp (Bool.eq_false_iff.mpr hf)) x hx
        simpa using hx2
      simp [hf, hall, hne, hl]

theorem expandSearch_fatal_iff (expand : String → List String) (eoe : Bool)
    (paths : List String) :
    (expandSearch expand eoe paths).fatal = true
      ↔ (expandSearch expand eoe paths).warnings ≠ [] ∧ eoe = true := by
  unfold expandSearch
  cases hl : paths.getLast? with
  | none => simp
  | some g =>
    by_cases hf : (paths.any fun x => !(expand x).isEmpty) = true
    · simp [hf]
    · simp [hf, globWarning]

theorem processSearches_lenient (expand : String → List String) :
    ∀ searches : List (List String),
      (processSearches expand false searches).targets
        = (searches.map fun ps => (ps.map expand).flatten).flatten := by
  intro searches
  induction searches with
  | nil => rfl
  | cons ps rest ih =>
    simp only [processSearches, expandSearch_fatal_lenient, Bool.false_eq_true,
      if_false, List.map_cons, List.flatten_cons]
    rw [expandSearch_targets, ih]

/-! ### Claims about glob expansion -/

/-- Claim C7, counterexample: a glob entry with zero matches is NOT always
warned about. In a search with paths `["a*", "b*"]` where `a*` expands to
nothing but `b*` matches, no warning is reported at all — the warning is
emitted only when every glob of the search's whole path list fails. -/
theorem glob_zero_match_not_warned :
    expandSearch (fun g => if g == "b*" then ["b1"] else []) false ["a*", "b*"]
      = ⟨["b1"], [], false⟩
    ∧ (fun g : String => if g == "b*" then ["b1"] else []) "a*" = [] := by
  decide

/-- Claim C7 as amended: a configuration warning is reported exactly when a
search's whole path list is non-empty and every glob in it yields zero
matches, and it names the last glob of the list; with `--exit_on_error`
(strict mode) that warning is fatal, otherwise processing continues with
the remaining searches and definitions (all their expansions are still
collected). -/
theorem glob_warning_all_fail (expand : String → List String) (eoe : Bool)
    (paths : List String) :
    ((expandSearch expand eoe paths).warnings
        = if paths ≠ [] ∧ (paths.all fun g => (expand g).isEmpty) = true
          then [globWarning (paths.getLast?.getD "")] else [])
    ∧ ((expandSearch expand eoe paths).fatal = true
        ↔ (expandSearch expand eoe paths).warnings ≠ [] ∧ eoe = true)
    ∧ (∀ searches : List (List String),
        (processSearches expand false searches).targets
          = (searches.map fun ps => (ps.map expand).flatten).flatten) :=
  ⟨expandSearch_warnings expand eoe paths,
   expandSearch_fatal_iff expand eoe paths,
   fun searches => processSearches_lenient expand searches⟩

end FW
